import Mathlib

/-!
Verification of the jupiter-account core (src/lib.rs): the Account / Tx / TxData
data model, RLP wire format, balance/nonce ledger operations, and the
secp256k1-based signing and signature-recovery protocol.

External collaborators are modelled as capabilities, per the specification:
  * the `rlp` crate (canonical length-prefixed codec) is modelled byte-level,
    with the crate's lazy decoding discipline (header inspection, item
    counting, positional value extraction);
  * the secp256k1 / keccak primitives are an abstract bundle `Crypto` of pure
    functions, carrying only the laws guaranteed by the Rust types
    (signature serializes to 64 bytes, recovery id below 4, digests are
    32 bytes); behavioural laws (recover of own signature, verify of own
    signature) appear as explicit hypotheses of the theorems that need them;
  * `NibbleKey` (from multiproof-rs) is a wrapper around a list of half-byte
    path components; `From<ByteKey>` splits each byte into two nibbles,
    `From<Vec<u8>>` adopts the vector as nibbles directly, and its RLP
    encoding is the RLP string of the nibble vector;
  * `Multiproof` is, per the specification, an opaque serializable blob: it is
    modelled as owned bytes serialized as one RLP string item.

Bytes are `Nat` (values < 256 in all real states); u64/u32 arithmetic is `Nat`
with explicit `% 2 ^ 64` where the Rust code performs wrapping addition.
Rust panics (`unwrap`, slice index, the explicit decode `panic!`-style abort)
are modelled by the `panics` constructor of `Outcome`.
Recursion over byte buffers uses explicit fuel (initialised to the buffer
length, which each step strictly decreases) so that every definition is
executable and reducible by the kernel.
-/

deriving instance DecidableEq for Except

namespace Jupiter

/-- Big-endian value of a byte list (the `rlp` crate's uint accumulation). -/
def beVal (bs : List Nat) : Nat := bs.foldl (fun a b => a * 256 + b) 0

/-- Fuelled minimal big-endian byte representation. -/
def beBytesF : Nat → Nat → List Nat
  | 0, _ => []
  | fuel + 1, n => if n = 0 then [] else beBytesF fuel (n / 256) ++ [n % 256]

/-- Minimal big-endian bytes of `n` (empty for 0), as emitted by the `rlp`
crate's uint encoder. -/
def beBytes (n : Nat) : List Nat := beBytesF n n

/-- Error taxonomy of the external `rlp` crate's `DecoderError` (the variants
this code base can hit). -/
inductive DecoderError where
  | rlpExpectedToBeList
  | rlpExpectedToBeData
  | rlpIsTooShort
  | rlpIsTooBig
  | rlpInvalidIndirection
  | rlpDataLenLeadingZero
  | rlpListLenLeadingZero
  | rlpInconsistentLengthAndData
  deriving DecidableEq, Repr

/-- Header inspection of one RLP item: `(header length, payload length)`,
mirroring the crate's `PayloadInfo`. -/
def payloadInfo : List Nat → Except DecoderError (Nat × Nat)
  | [] => .error .rlpIsTooShort
  | b :: rest =>
    if b < 0x80 then .ok (0, 1)
    else if b ≤ 0xb7 then .ok (1, b - 0x80)
    else if b ≤ 0xbf then
      let lol := b - 0xb7
      if rest.length < lol then .error .rlpIsTooShort
      else
        let lenBytes := rest.take lol
        if lenBytes.head? = some 0 then .error .rlpDataLenLeadingZero
        else .ok (1 + lol, beVal lenBytes)
    else if b ≤ 0xf7 then .ok (1, b - 0xc0)
    else
      let lol := b - 0xf7
      if rest.length < lol then .error .rlpIsTooShort
      else
        let lenBytes := rest.take lol
        if lenBytes.head? = some 0 then .error .rlpListLenLeadingZero
        else .ok (1 + lol, beVal lenBytes)

/-- The crate's `Rlp::is_list`: nonempty and first byte at least 0xc0. -/
def isListBytes : List Nat → Bool
  | [] => false
  | b :: _ => decide (0xc0 ≤ b)

/-- Fuelled item counting inside a list payload (the crate's iteration under
`Rlp::item_count`): skip whole items by their headers. -/
def countAuxF : Nat → List Nat → Except DecoderError Nat
  | _, [] => .ok 0
  | 0, _ :: _ => .error .rlpIsTooShort
  | fuel + 1, b :: rest =>
    match payloadInfo (b :: rest) with
    | .error e => .error e
    | .ok (h, l) =>
      if (b :: rest).length < h + l then .error .rlpIsTooShort
      else
        match countAuxF fuel (rest.drop (h + l - 1)) with
        | .error e => .error e
        | .ok n => .ok (n + 1)

/-- Item count inside a payload, with fuel instantiated to the buffer length
(one byte at least is consumed per step). -/
def countAux (bytes : List Nat) : Except DecoderError Nat :=
  countAuxF bytes.length bytes

/-- The crate's `Rlp::item_count`: requires a list, then counts the items of
its payload. -/
def itemCount (bytes : List Nat) : Except DecoderError Nat :=
  if isListBytes bytes = false then .error .rlpExpectedToBeList
  else
    match payloadInfo bytes with
    | .error e => .error e
    | .ok (h, l) =>
      if bytes.length < h + l then .error .rlpIsTooShort
      else countAux ((bytes.drop h).take l)

/-- Fuelled positional item extraction inside a payload: the sub-buffer
(header plus payload) of the item at the given index. -/
def atAuxF : Nat → List Nat → Nat → Except DecoderError (List Nat)
  | _, [], _ => .error .rlpIsTooShort
  | 0, _ :: _, _ => .error .rlpIsTooShort
  | fuel + 1, b :: rest, i =>
    match payloadInfo (b :: rest) with
    | .error e => .error e
    | .ok (h, l) =>
      if (b :: rest).length < h + l then .error .rlpIsTooShort
      else if i = 0 then .ok ((b :: rest).take (h + l))
      else atAuxF fuel (rest.drop (h + l - 1)) (i - 1)

/-- Positional item extraction inside a payload. -/
def atAux (bytes : List Nat) (i : Nat) : Except DecoderError (List Nat) :=
  atAuxF bytes.length bytes i

/-- The crate's `Rlp::at`: requires a list, then returns the sub-buffer of the
item at the given index of its payload. -/
def atIndex (bytes : List Nat) (i : Nat) : Except DecoderError (List Nat) :=
  if isListBytes bytes = false then .error .rlpExpectedToBeList
  else
    match payloadInfo bytes with
    | .error e => .error e
    | .ok (h, l) =>
      if bytes.length < h + l then .error .rlpIsTooShort
      else atAux ((bytes.drop h).take l) i

/-- The crate's `BasicDecoder::decode_value` on one item: must be a data item,
must be complete, and a one-byte payload below 0x80 behind a length header is
rejected as invalid indirection. Returns the payload bytes. -/
def dataOf (bytes : List Nat) : Except DecoderError (List Nat) :=
  if isListBytes bytes = true then .error .rlpExpectedToBeData
  else
    match payloadInfo bytes with
    | .error e => .error e
    | .ok (h, l) =>
      if bytes.length < h + l then .error .rlpInconsistentLengthAndData
      else
        let d := (bytes.drop h).take l
        if h = 1 ∧ l = 1 ∧ d.headI < 0x80 then .error .rlpInvalidIndirection
        else .ok d

/-- The crate's uint value decoding: at most `maxLen` bytes, no leading zero,
big-endian value. -/
def decodeUintData (maxLen : Nat) (d : List Nat) : Except DecoderError Nat :=
  if maxLen < d.length then .error .rlpIsTooBig
  else if d.head? = some 0 then .error .rlpInvalidIndirection
  else .ok (beVal d)

/-- `rlp.val_at::<Vec<u8>>(i)`: extract the item at index `i` and read its
data payload. -/
def valBytesAt (bytes : List Nat) (i : Nat) : Except DecoderError (List Nat) := do
  let sub ← atIndex bytes i
  dataOf sub

/-- `rlp.val_at::<uN>(i)`: extract the item at index `i` and decode it as an
unsigned integer of at most `maxLen` bytes. -/
def valUintAt (maxLen : Nat) (bytes : List Nat) (i : Nat) : Except DecoderError Nat := do
  let d ← valBytesAt bytes i
  decodeUintData maxLen d

/-- RLP encoding of a byte string (the crate's string encoder). -/
def encStr (bs : List Nat) : List Nat :=
  if bs.length = 1 ∧ bs.headI < 0x80 then bs
  else if bs.length ≤ 55 then (0x80 + bs.length) :: bs
  else (0xb7 + (beBytes bs.length).length) :: (beBytes bs.length ++ bs)

/-- RLP list framing of an already-encoded payload (the crate's list header,
as produced by `begin_unbounded_list`/`finalize_unbounded_list`). -/
def encListPayload (p : List Nat) : List Nat :=
  if p.length ≤ 55 then (0xc0 + p.length) :: p
  else (0xf7 + (beBytes p.length).length) :: (beBytes p.length ++ p)

/-- RLP encoding of an unsigned integer: minimal big-endian bytes as a
string. -/
def encUint (n : Nat) : List Nat := encStr (beBytes n)

/-- multiproof-rs `NibbleKey`: a key over half-byte path components. -/
structure NibbleKey where
  nibbles : List Nat
  deriving DecidableEq, Repr

/-- multiproof-rs `From<Vec<u8>> for NibbleKey`: adopt the vector as nibbles
directly (this is how decoded keys are rebuilt). -/
def NibbleKey.ofVec (v : List Nat) : NibbleKey := ⟨v⟩

/-- multiproof-rs `NibbleKey::from(ByteKey::from(bytes))`: split every byte
into its high and low nibble. -/
def NibbleKey.ofByteKey (bytes : List Nat) : NibbleKey :=
  ⟨(bytes.map (fun b => [b / 16, b % 16])).flatten⟩

/-- Result of running a fallible Rust computation: a returned value, a
returned structured error, or a process abort (panic / failed unwrap). -/
inductive Outcome (α : Type) where
  | ok (val : α)
  | err (e : DecoderError)
  | panics (msg : String)
  deriving DecidableEq, Repr

/-- Abstract bundle of the external secp256k1 and keccak-256 primitives.
`sign` returns the 64 serialized signature bytes and the recovery id;
`recover` returns the serialized public key, or `none` when the library call
fails; `validSk` is `SecretKey::parse` succeeding. The three laws are exactly
the guarantees of the Rust types: `Signature::serialize` is `[u8; 64]`, a
`RecoveryId` produced by `sign` is below 4, and `Keccak256` digests are
`[u8; 32]`. The secp256k1 crate's operations are deterministic (RFC 6979
signing), hence pure functions. -/
structure Crypto where
  sign : List Nat → List Nat → List Nat × Nat
  recover : List Nat → List Nat → Nat → Option (List Nat)
  verify : List Nat → List Nat → List Nat → Bool
  keccak : List Nat → List Nat
  validSk : List Nat → Bool
  sign_len : ∀ m k, (sign m k).1.length = 64
  sign_recid : ∀ m k, (sign m k).2 < 4
  keccak_len : ∀ bs, (keccak bs).length = 32

/-- `Message::parse_slice`: succeeds exactly on 32-byte inputs. -/
def messageParse (bs : List Nat) : Option (List Nat) :=
  if bs.length = 32 then some bs else none

/-- `Signature::parse_slice`: succeeds exactly on 64-byte inputs. -/
def signatureParseSlice (bs : List Nat) : Option (List Nat) :=
  if bs.length = 64 then some bs else none

/-- `RecoveryId::parse`: succeeds exactly on ids below 4. -/
def recoveryIdParse (b : Nat) : Option Nat :=
  if b < 4 then some b else none

/-- Keccak-256 of a serialized public key, truncated to 20 bytes and
nibble-encoded: the address construction shared by `From<SecretKey>` and
`sig_check`. -/
def addressFromPubkey (C : Crypto) (pk : List Nat) : NibbleKey :=
  NibbleKey.ofByteKey ((C.keccak pk).take 20)

/-- The `Account` entity of src/lib.rs: `Existing(address, nonce, balance,
code, state)` or `Empty`. -/
inductive Account where
  | Existing (addr : NibbleKey) (nonce : Nat) (balance : Nat)
      (code : List Nat) (state : List Nat)
  | Empty
  deriving DecidableEq, Repr

/-- `Account::balance`: stored balance for `Existing`, 0 otherwise. -/
def Account.balance : Account → Nat
  | .Existing _ _ balance _ _ => balance
  | _ => 0

/-- `Account::nonce`: stored nonce for `Existing`, 0 otherwise. -/
def Account.nonce : Account → Nat
  | .Existing _ nonce _ _ _ => nonce
  | _ => 0

/-- `Account::balance_mut`: a mutable reference for `Existing`, absent for
`Empty`; modelled as the optional balance. -/
def Account.balance_mut : Account → Option Nat
  | .Existing _ _ balance _ _ => some balance
  | _ => none

/-- `Account::nonce_mut`: symmetric to `balance_mut`. -/
def Account.nonce_mut : Account → Option Nat
  | .Existing _ nonce _ _ _ => some nonce
  | _ => none

/-- `Account::deposit`: wrapping u64 addition on `Existing`, error on
`Empty`. Returns the `Result` together with the post-state of `&mut self`. -/
def Account.deposit (a : Account) (amount : Nat) : Except String Unit × Account :=
  match a with
  | .Existing addr nonce balance code state =>
      (.ok (), .Existing addr nonce ((balance + amount) % 2 ^ 64) code state)
  | .Empty => (.error ("can not increase the balance of an empty account"), a)

/-- `Account::withdraw`: when `balance >= amount` the source performs
`*balance += amount` (wrapping u64 addition — the addition is what the code
does, not a transcription slip); otherwise an insufficient-balance error;
error on `Empty`. -/
def Account.withdraw (a : Account) (amount : Nat) : Except String Unit × Account :=
  match a with
  | .Existing addr nonce balance code state =>
      if amount ≤ balance then
        (.ok (), .Existing addr nonce ((balance + amount) % 2 ^ 64) code state)
      else (.error ("Insufficient balance"), a)
  | .Empty => (.error ("Can not increase the balance of an empty account"), a)

/-- `From<SecretKey> for Account`: sign the fixed message of 32 `0x55` bytes,
recover the public key from that signature (unwrap), keccak it, truncate to
20 bytes, nibble-encode. -/
def Account.fromSecretKey (C : Crypto) (sk : List Nat) : Outcome Account :=
  match messageParse (List.replicate 32 0x55) with
  | none => .panics ("unwrap failed: Message parse")
  | some msg =>
    let sr := C.sign msg sk
    match C.recover msg sr.1 sr.2 with
    | none => .panics ("unwrap failed: public key recovery")
    | some pkey => .ok (.Existing (addressFromPubkey C pkey) 0 0 [] [])

/-- `rlp::Encodable for Account`: `Empty` appends the empty-data marker;
`Existing` appends the 5-item list [address, nonce, balance, code, state]. -/
def Account.rlp_append : Account → List Nat
  | .Empty => encStr []
  | .Existing addr nonce balance code state =>
      encListPayload (encStr addr.nibbles ++ encUint nonce ++ encUint balance ++
        encStr code ++ encStr state)

/-- `rlp::Decodable for Account`: match on the outer item count — 5 decodes
the fields, 0 is `Empty`, anything else aborts the process
(`panic!("Invalid payload, item count=...")`). -/
def Account.decode (bytes : List Nat) : Outcome Account :=
  match itemCount bytes with
  | .error e => .err e
  | .ok 5 =>
    match (do
      let a ← valBytesAt bytes 0
      let n ← valUintAt 8 bytes 1
      let b ← valUintAt 8 bytes 2
      let c ← valBytesAt bytes 3
      let s ← valBytesAt bytes 4
      pure (Account.Existing (NibbleKey.ofVec a) n b c s) :
        Except DecoderError Account) with
    | .error e => .err e
    | .ok acct => .ok acct
  | .ok 0 => .ok .Empty
  | .ok n => .panics ("Invalid payload, item count=" ++ toString n)

/-- The `Tx` entity of src/lib.rs (`from` and `to` are spelled `from_` and
`to_`, as both are reserved words in Lean). -/
structure Tx where
  from_ : NibbleKey
  to_ : NibbleKey
  nonce : Nat
  value : Nat
  call : Nat
  data : List Nat
  signature : List Nat
  deriving DecidableEq, Repr

/-- `rlp::Encodable for Tx`: the 7-item list
[from, to, nonce, value, call, data, signature]. -/
def Tx.rlp_append (t : Tx) : List Nat :=
  encListPayload (encStr t.from_.nibbles ++ encStr t.to_.nibbles ++
    encUint t.nonce ++ encUint t.value ++ encUint t.call ++
    encStr t.data ++ encStr t.signature)

/-- `rlp::Decodable for Tx`: positional reads of the 7 fields (no item-count
check); decoded keys are rebuilt via `NibbleKey::from(Vec<u8>)`. -/
def Tx.decode (bytes : List Nat) : Except DecoderError Tx := do
  let f ← valBytesAt bytes 0
  let t ← valBytesAt bytes 1
  let n ← valUintAt 8 bytes 2
  let v ← valUintAt 8 bytes 3
  let c ← valUintAt 4 bytes 4
  let d ← valBytesAt bytes 5
  let s ← valBytesAt bytes 6
  pure { from_ := NibbleKey.ofVec f, to_ := NibbleKey.ofVec t, nonce := n,
         value := v, call := c, data := d, signature := s }

/-- `Tx::new`: byte addresses are nibble-split, the signature is zero-filled
with 65 bytes, and value/call/data start empty. -/
def Tx.new (from_ to_ : List Nat) (nonce : Nat) : Tx :=
  { from_ := NibbleKey.ofByteKey from_, to_ := NibbleKey.ofByteKey to_,
    nonce := nonce, signature := List.replicate 65 0, call := 0, value := 0,
    data := [] }

/-- The signing digest input: the concatenation of the individual RLP
encodings of from, to, nonce, value, call and data, in that order (each field
encoded on its own before hashing). -/
def Tx.digestInput (t : Tx) : List Nat :=
  encStr t.from_.nibbles ++ encStr t.to_.nibbles ++ encUint t.nonce ++
    encUint t.value ++ encUint t.call ++ encStr t.data

/-- `Tx::sign`: parse the secret key (unwrap), hash the encoded fields, sign
the digest, and write the 64 signature bytes and the recovery id into the
first 65 bytes of the signature field (slicing panics when the field is too
short). -/
def Tx.sign (C : Crypto) (t : Tx) (skey : List Nat) : Outcome Tx :=
  if C.validSk skey = false then .panics ("unwrap failed: SecretKey parse")
  else
    match messageParse (C.keccak t.digestInput) with
    | none => .panics ("unwrap failed: Message parse")
    | some message =>
      let sr := C.sign message skey
      if t.signature.length < 64 then .panics ("slice index out of range")
      else if t.signature.length < 65 then .panics ("index out of bounds")
      else .ok { t with signature := sr.1 ++ [sr.2] ++ t.signature.drop 65 }

/-- `Tx::sig_check`: recompute the digest over the same ordered fields, parse
the stored signature and recovery id (unwraps), recover the public key
(unwrap), verify; on verification failure return `(false, empty key)`,
otherwise derive the address of the recovered key and compare it with
`from`. -/
def Tx.sig_check (C : Crypto) (t : Tx) : Outcome (Bool × NibbleKey) :=
  match messageParse (C.keccak t.digestInput) with
  | none => .panics ("unwrap failed: Message parse")
  | some message =>
    if t.signature.length < 64 then .panics ("slice index out of range")
    else
      match signatureParseSlice (t.signature.take 64) with
      | none => .panics ("unwrap failed: Signature parse")
      | some signature =>
        if t.signature.length < 65 then .panics ("index out of bounds")
        else
          match recoveryIdParse (t.signature.getD 64 0) with
          | none => .panics ("unwrap failed: RecoveryId parse")
          | some recid =>
            match C.recover message signature recid with
            | none => .panics ("unwrap failed: public key recovery")
            | some pkey =>
              if C.verify message signature pkey = false then
                .ok (false, NibbleKey.ofVec [])
              else
                let addr := addressFromPubkey C pkey
                .ok (addr == t.from_, addr)

/-- Modelled from the spec: the external `Multiproof` is an opaque
serializable blob; it is represented by owned bytes whose RLP encoding is one
string item. -/
structure Multiproof where
  blob : List Nat
  deriving DecidableEq, Repr

/-- RLP encoding of the opaque multiproof blob. -/
def Multiproof.rlp_append (m : Multiproof) : List Nat := encStr m.blob

/-- RLP decoding of the opaque multiproof blob from its sub-buffer. -/
def Multiproof.decode (bytes : List Nat) : Except DecoderError Multiproof := do
  let d ← dataOf bytes
  pure ⟨d⟩

/-- The `TxData` entity of src/lib.rs: a multiproof plus an ordered
transaction list. -/
structure TxData where
  proof : Multiproof
  txs : List Tx
  deriving DecidableEq, Repr

/-- `rlp::Encodable for TxData`: the 2-item list [proof, tx-list]. -/
def TxData.rlp_append (td : TxData) : List Nat :=
  encListPayload (td.proof.rlp_append ++
    encListPayload ((td.txs.map Tx.rlp_append).flatten))

/-- Fuelled iteration over the payload of the tx list, decoding each item as
a `Tx` (the crate's `as_list::<Tx>`). -/
def txItemsF : Nat → List Nat → Except DecoderError (List Tx)
  | _, [] => .ok []
  | 0, _ :: _ => .error .rlpIsTooShort
  | fuel + 1, b :: rest =>
    match payloadInfo (b :: rest) with
    | .error e => .error e
    | .ok (h, l) =>
      if (b :: rest).length < h + l then .error .rlpIsTooShort
      else
        match Tx.decode ((b :: rest).take (h + l)) with
        | .error e => .error e
        | .ok tx =>
          match txItemsF fuel (rest.drop (h + l - 1)) with
          | .error e => .error e
          | .ok txs => .ok (tx :: txs)

/-- Decode every item of a list payload as a `Tx`. -/
def txItems (bytes : List Nat) : Except DecoderError (List Tx) :=
  txItemsF bytes.length bytes

/-- `rlp.list_at::<Tx>(i)` applied to a sub-buffer: requires a list, then
decodes each payload item as a `Tx`. -/
def listAtTxs (sub : List Nat) : Except DecoderError (List Tx) :=
  if isListBytes sub = false then .error .rlpExpectedToBeList
  else
    match payloadInfo sub with
    | .error e => .error e
    | .ok (h, l) =>
      if sub.length < h + l then .error .rlpIsTooShort
      else txItems ((sub.drop h).take l)

/-- `rlp::Decodable for TxData`: the proof at index 0, the tx list at
index 1. -/
def TxData.decode (bytes : List Nat) : Except DecoderError TxData := do
  let sub0 ← atIndex bytes 0
  let proof ← Multiproof.decode sub0
  let sub1 ← atIndex bytes 1
  let txs ← listAtTxs sub1
  pure ⟨proof, txs⟩

/-- Replace the byte at index `i` of the signature field (signature
corruption for the tamper-resistance claim). -/
def corruptAt (t : Tx) (i b : Nat) : Tx :=
  { t with signature := t.signature.set i b }

/-- Typing bounds that hold for every real `Tx` by virtue of the Rust types
(u64 / u32 fields, vector lengths far below `usize::MAX`). -/
def TxWf (t : Tx) : Prop :=
  t.nonce < 2 ^ 64 ∧ t.value < 2 ^ 64 ∧ t.call < 2 ^ 32 ∧
    t.from_.nibbles.length < 2 ^ 32 ∧ t.to_.nibbles.length < 2 ^ 32 ∧
    t.data.length < 2 ^ 32 ∧ t.signature.length < 2 ^ 32

instance (t : Tx) : Decidable (TxWf t) := by
  unfold TxWf; infer_instance

/-- A byte buffer that parses as exactly one complete RLP item: it is
nonempty and its header describes the whole buffer, independently of what
follows it. -/
def ChunkLike (c : List Nat) : Prop :=
  0 < c.length ∧
    ∃ h l, c.length = h + l ∧ ∀ rest, payloadInfo (c ++ rest) = .ok (h, l)

/-- A concrete crypto bundle satisfying the type-level laws, used to witness
the conditional theorems: signing emits the key padded to 64 bytes with
recovery id 0, recovery reads the key back from the signature, verification
always succeeds, and the digest is the input padded/truncated to 32 bytes. -/
def toyCrypto : Crypto where
  sign := fun _ k => ((k ++ List.replicate 64 0).take 64, 0)
  recover := fun _ s _ => some (s.take 32)
  verify := fun _ _ _ => true
  keccak := fun bs => (bs ++ List.replicate 32 0).take 32
  validSk := fun _ => true
  sign_len := by intro m k; simp
  sign_recid := by intro m k; simp
  keccak_len := by intro bs; simp

/-- The toy bundle with a recovery primitive that always fails. -/
def toyCryptoNone : Crypto :=
  { toyCrypto with recover := fun _ _ _ => none }

/-- Sample 32-byte secret key (the test scaffolding's `[1u8; 32]`). -/
def sampleKey : List Nat := List.replicate 32 1

/-- Sample transaction whose from-address is the toy-derived address of
`sampleKey` (20 bytes of 1), mirroring the shape of the repository's test. -/
def sampleTx : Tx := Tx.new (List.replicate 20 1) (List.replicate 20 6) 1

/-- `sampleTx` after `Tx::sign` under the toy bundle. -/
def sampleSignedTx : Tx :=
  { sampleTx with signature := (sampleKey ++ List.replicate 32 0) ++ [0] }

/-!  Supporting lemmas: big-endian bytes. -/

theorem beVal_append_singleton (xs : List Nat) (b : Nat) :
    beVal (xs ++ [b]) = beVal xs * 256 + b := by
  simp [beVal, List.foldl_append]

theorem beBytesF_congr : ∀ f₁ f₂ n, n ≤ f₁ → n ≤ f₂ → beBytesF f₁ n = beBytesF f₂ n := by
  intro f₁
  induction f₁ with
  | zero =>
    intro f₂ n h₁ _
    interval_cases n
    cases f₂ <;> simp [beBytesF]
  | succ f ih =>
    intro f₂ n h₁ h₂
    cases f₂ with
    | zero =>
      interval_cases n
      simp [beBytesF]
    | succ f' =>
      simp only [beBytesF]
      rcases Nat.eq_zero_or_pos n with hn | hn
      · simp [hn]
      · have hd : n / 256 < n := Nat.div_lt_self hn (by omega)
        rw [if_neg (by omega), if_neg (by omega), ih f' (n / 256) (by omega) (by omega)]

theorem beBytes_eq (n : Nat) :
    beBytes n = if n = 0 then [] else beBytes (n / 256) ++ [n % 256] := by
  rcases Nat.eq_zero_or_pos n with hn | hn
  · simp [hn, beBytes, beBytesF]
  · obtain ⟨m, rfl⟩ : ∃ m, n = m + 1 := ⟨n - 1, by omega⟩
    rw [if_neg (by omega)]
    show beBytesF (m + 1) (m + 1) = beBytes ((m + 1) / 256) ++ [(m + 1) % 256]
    have hd : (m + 1) / 256 < m + 1 := Nat.div_lt_self (by omega) (by omega)
    simp only [beBytesF, if_neg (Nat.succ_ne_zero m)]
    rw [beBytesF_congr m ((m + 1) / 256) ((m + 1) / 256) (by omega) le_rfl]
    rfl

theorem beVal_beBytes (n : Nat) : beVal (beBytes n) = n := by
  induction n using Nat.strong_induction_on with
  | _ n ih =>
    rw [beBytes_eq]
    rcases Nat.eq_zero_or_pos n with hn | hn
    · simp [hn, beVal]
    · rw [if_neg (by omega), beVal_append_singleton,
        ih (n / 256) (Nat.div_lt_self hn (by omega))]
      omega

theorem beBytes_eq_nil_iff (n : Nat) : beBytes n = [] ↔ n = 0 := by
  constructor
  · intro h
    by_contra hn
    rw [beBytes_eq, if_neg hn] at h
    simp at h
  · intro h
    simp [h, beBytes, beBytesF]

theorem beBytes_ne_zero_cons (n : Nat) : ∀ tl, beBytes n ≠ 0 :: tl := by
  induction n using Nat.strong_induction_on with
  | _ n ih =>
    intro tl h
    rcases Nat.eq_zero_or_pos n with hn | hn
    · rw [beBytes_eq, if_pos hn] at h
      exact List.noConfusion h
    · rw [beBytes_eq, if_neg (by omega)] at h
      rcases hq : beBytes (n / 256) with _ | ⟨b, tb⟩
      · rw [hq] at h
        have h256 : n / 256 = 0 := (beBytes_eq_nil_iff _).1 hq
        simp at h
        have : n % 256 = 0 := h.1
        omega
      · rw [hq] at h
        have hb : b = 0 := by
          have := congrArg List.head? h
          simpa using this
        exact ih (n / 256) (Nat.div_lt_self hn (by omega)) tb (by rw [hq, hb])

theorem beBytes_head?_ne_zero (n : Nat) : (beBytes n).head? ≠ some 0 := by
  rcases hq : beBytes n with _ | ⟨b, tb⟩
  · simp
  · intro h
    simp at h
    exact beBytes_ne_zero_cons n tb (by rw [hq, h])

theorem beBytes_length_le : ∀ (k n : Nat), n < 256 ^ k → (beBytes n).length ≤ k := by
  intro k
  induction k with
  | zero =>
    intro n h
    interval_cases n
    simp [beBytes, beBytesF]
  | succ k ih =>
    intro n h
    rcases Nat.eq_zero_or_pos n with hn | hn
    · simp [hn, beBytes, beBytesF]
    · rw [beBytes_eq, if_neg (by omega)]
      have hdiv : n / 256 < 256 ^ k := by
        rw [Nat.div_lt_iff_lt_mul (by omega)]
        calc n < 256 ^ (k + 1) := h
        _ = 256 ^ k * 256 := by rw [Nat.pow_succ]
      simp only [List.length_append, List.length_cons, List.length_nil]
      have := ih (n / 256) hdiv
      omega

theorem beBytes_length_le_self (n : Nat) : (beBytes n).length ≤ n := by
  induction n using Nat.strong_induction_on with
  | _ n ih =>
    rcases Nat.eq_zero_or_pos n with hn | hn
    · simp [hn, beBytes, beBytesF]
    · rw [beBytes_eq, if_neg (by omega)]
      have := ih (n / 256) (Nat.div_lt_self hn (by omega))
      simp only [List.length_append, List.length_cons, List.length_nil]
      have hd : n / 256 < n := Nat.div_lt_self hn (by omega)
      omega

theorem pow_256_8 : (256 : Nat) ^ 8 = 2 ^ 64 := by norm_num

/-!  Supporting lemmas: header parsing of encoded items. -/

theorem encStr_spec (bs : List Nat) (hlen : bs.length < 2 ^ 64) :
    ∃ hd, encStr bs = hd ++ bs ∧
      (∀ rest, payloadInfo (encStr bs ++ rest) = .ok (hd.length, bs.length)) ∧
      (∀ rest, isListBytes (encStr bs ++ rest) = false) ∧
      (hd.length = 1 ∧ bs.length = 1 → 0x80 ≤ bs.headI) := by
  unfold encStr
  split_ifs with h1 h2
  · obtain ⟨hb, hh⟩ := h1
    obtain ⟨b, rfl⟩ := List.length_eq_one.mp hb
    simp only [List.headI] at hh
    refine ⟨[], by simp, ?_, ?_, by simp⟩
    · intro rest
      simp [payloadInfo, if_pos hh]
    · intro rest
      simp only [List.cons_append, isListBytes]
      simp only [decide_eq_false_iff_not]
      omega
  · refine ⟨[0x80 + bs.length], rfl, ?_, ?_, ?_⟩
    · intro rest
      simp only [List.cons_append, payloadInfo]
      rw [if_neg (by omega), if_pos (by omega)]
      simp
    · intro rest
      simp only [List.cons_append, isListBytes]
      simp only [decide_eq_false_iff_not]
      omega
    · rintro ⟨-, hb1⟩
      rw [not_and] at h1
      have := h1 hb1
      omega
  · have hne : bs.length ≠ 0 := by omega
    have hL8 : (beBytes bs.length).length ≤ 8 := by
      refine beBytes_length_le 8 bs.length ?_
      rw [pow_256_8]; exact hlen
    have hL1 : 1 ≤ (beBytes bs.length).length := by
      rcases hq : beBytes bs.length with _ | ⟨b, tb⟩
      · exact absurd ((beBytes_eq_nil_iff _).mp hq) hne
      · simp
    refine ⟨(0xb7 + (beBytes bs.length).length) :: beBytes bs.length, by simp, ?_, ?_,
      by rintro ⟨-, hb1⟩; omega⟩
    · intro rest
      simp only [List.cons_append, List.append_assoc, payloadInfo]
      rw [if_neg (by omega), if_neg (by omega), if_pos (by omega)]
      have harith : 0xb7 + (beBytes bs.length).length - 0xb7 = (beBytes bs.length).length := by
        omega
      rw [harith]
      rw [if_neg (by simp)]
      rw [List.take_left, if_neg (beBytes_head?_ne_zero bs.length), beVal_beBytes]
      simp only [List.length_cons]
      rw [Nat.add_comm 1 (beBytes bs.length).length]
    · intro rest
      simp only [List.cons_append, isListBytes]
      simp only [decide_eq_false_iff_not]
      omega

theorem encListPayload_spec (p : List Nat) (hlen : p.length < 2 ^ 64) :
    ∃ hd, encListPayload p = hd ++ p ∧ 0 < hd.length ∧
      (∀ rest, payloadInfo (encListPayload p ++ rest) = .ok (hd.length, p.length)) ∧
      (∀ rest, isListBytes (encListPayload p ++ rest) = true) := by
  unfold encListPayload
  split_ifs with h1
  · refine ⟨[0xc0 + p.length], rfl, by simp, ?_, ?_⟩
    · intro rest
      simp only [List.cons_append, payloadInfo]
      rw [if_neg (by omega), if_neg (by omega), if_neg (by omega), if_pos (by omega)]
      simp
    · intro rest
      simp only [List.cons_append, isListBytes]
      simp only [decide_eq_true_eq]
      omega
  · have hne : p.length ≠ 0 := by omega
    have hL8 : (beBytes p.length).length ≤ 8 := by
      refine beBytes_length_le 8 p.length ?_
      rw [pow_256_8]; exact hlen
    have hL1 : 1 ≤ (beBytes p.length).length := by
      rcases hq : beBytes p.length with _ | ⟨b, tb⟩
      · exact absurd ((beBytes_eq_nil_iff _).mp hq) hne
      · simp
    refine ⟨(0xf7 + (beBytes p.length).length) :: beBytes p.length, by simp, by simp, ?_, ?_⟩
    · intro rest
      simp only [List.cons_append, List.append_assoc, payloadInfo]
      rw [if_neg (by omega), if_neg (by omega), if_neg (by omega), if_neg (by omega)]
      have harith : 0xf7 + (beBytes p.length).length - 0xf7 = (beBytes p.length).length := by
        omega
      rw [harith]
      rw [if_neg (by simp)]
      rw [List.take_left, if_neg (beBytes_head?_ne_zero p.length), beVal_beBytes]
      simp only [List.length_cons]
      rw [Nat.add_comm 1 (beBytes p.length).length]
    · intro rest
      simp only [List.cons_append, isListBytes]
      simp only [decide_eq_true_eq]
      omega

/-!  Supporting lemmas: decoding what the encoders produce. -/

theorem dataOf_encStr (bs : List Nat) (hlen : bs.length < 2 ^ 64) :
    dataOf (encStr bs) = .ok bs := by
  obtain ⟨hd, henc, hpi, hlist, hind⟩ := encStr_spec bs hlen
  have hpi0 : payloadInfo (encStr bs) = .ok (hd.length, bs.length) := by
    have := hpi []
    simpa using this
  have hlist0 : isListBytes (encStr bs) = false := by
    have := hlist []
    simpa using this
  have hlen2 : (encStr bs).length = hd.length + bs.length := by
    rw [henc]; simp
  have hdrop : (encStr bs).drop hd.length = bs := by
    rw [henc, List.drop_left]
  unfold dataOf
  rw [hlist0]
  simp only [Bool.false_eq_true, if_false, hpi0]
  rw [if_neg (by omega), hdrop, List.take_length]
  rw [if_neg ?_]
  intro ⟨ha, hb, hc⟩
  have := hind ⟨ha, hb⟩
  omega

theorem decodeUintData_beBytes (maxLen n : Nat) (h : (beBytes n).length ≤ maxLen) :
    decodeUintData maxLen (beBytes n) = .ok n := by
  unfold decodeUintData
  rw [if_neg (by omega), if_neg (beBytes_head?_ne_zero n), beVal_beBytes]

theorem chunkLike_encStr (bs : List Nat) (hlen : bs.length < 2 ^ 64) :
    ChunkLike (encStr bs) := by
  obtain ⟨hd, henc, hpi, -, -⟩ := encStr_spec bs hlen
  refine ⟨?_, hd.length, bs.length, by rw [henc]; simp, fun rest => hpi rest⟩
  by_contra hc
  have h0 : encStr bs = [] := by
    cases hq : encStr bs with
    | nil => rfl
    | cons x xs => rw [hq] at hc; simp at hc
  have := hpi []
  rw [h0] at this
  simp [payloadInfo] at this

theorem chunkLike_encUint (n : Nat) (hn : n < 2 ^ 64) : ChunkLike (encUint n) := by
  refine chunkLike_encStr (beBytes n) ?_
  have := beBytes_length_le 8 n (by rw [pow_256_8]; exact hn)
  omega

theorem chunkLike_encListPayload (p : List Nat) (hlen : p.length < 2 ^ 64) :
    ChunkLike (encListPayload p) := by
  obtain ⟨hd, henc, hdpos, hpi, -⟩ := encListPayload_spec p hlen
  refine ⟨by rw [henc]; simp; omega, hd.length, p.length, by rw [henc]; simp,
    fun rest => hpi rest⟩

theorem encStr_length_le (bs : List Nat) (hlen : bs.length < 2 ^ 64) :
    (encStr bs).length ≤ bs.length + 9 := by
  have hL8 : (beBytes bs.length).length ≤ 8 :=
    beBytes_length_le 8 bs.length (by rw [pow_256_8]; exact hlen)
  unfold encStr
  split_ifs with h1 h2 <;> simp <;> omega

theorem encUint_length_le (n : Nat) (hn : n < 2 ^ 64) : (encUint n).length ≤ 9 := by
  have hL8 : (beBytes n).length ≤ 8 :=
    beBytes_length_le 8 n (by rw [pow_256_8]; exact hn)
  unfold encUint encStr
  split_ifs with h1 h2 <;> simp <;> omega

theorem encListPayload_length_le (p : List Nat) (hlen : p.length < 2 ^ 64) :
    (encListPayload p).length ≤ p.length + 9 := by
  have hL8 : (beBytes p.length).length ≤ 8 :=
    beBytes_length_le 8 p.length (by rw [pow_256_8]; exact hlen)
  unfold encListPayload
  split_ifs with h1 <;> simp <;> omega

theorem countAuxF_flatten :
    ∀ (cs : List (List Nat)) (fuel : Nat), (∀ c ∈ cs, ChunkLike c) →
      cs.flatten.length ≤ fuel → countAuxF fuel cs.flatten = .ok cs.length := by
  intro cs
  induction cs with
  | nil =>
    intro fuel _ _
    cases fuel <;> simp [countAuxF]
  | cons c cs ih =>
    intro fuel hall hfuel
    obtain ⟨hpos, h, l, hsum, hpi⟩ := hall c (by simp)
    rcases c with _ | ⟨b, ctail⟩
    · simp at hpos
    · simp only [List.flatten_cons, List.cons_append] at hfuel ⊢
      cases fuel with
      | zero => simp at hfuel
      | succ f =>
        have hpi' : payloadInfo (b :: (ctail ++ cs.flatten)) = .ok (h, l) := by
          have := hpi cs.flatten
          simpa using this
        simp only [List.length_cons] at hsum
        simp only [countAuxF, hpi']
        rw [if_neg (by simp only [List.length_cons, List.length_append]; omega)]
        have hdrop : (ctail ++ cs.flatten).drop (h + l - 1) = cs.flatten := by
          have he : h + l - 1 = ctail.length := by omega
          rw [he, List.drop_left]
        rw [hdrop, ih f (fun x hx => hall x (by simp [hx])) (by
          simp only [List.length_cons, List.length_append] at hfuel
          omega)]
        simp

theorem atAuxF_flatten :
    ∀ (cs : List (List Nat)) (fuel i : Nat), (∀ c ∈ cs, ChunkLike c) →
      cs.flatten.length ≤ fuel → i < cs.length →
      atAuxF fuel cs.flatten i = .ok (cs.getD i []) := by
  intro cs
  induction cs with
  | nil =>
    intro fuel i _ _ hi
    simp at hi
  | cons c cs ih =>
    intro fuel i hall hfuel hi
    obtain ⟨hpos, h, l, hsum, hpi⟩ := hall c (by simp)
    rcases c with _ | ⟨b, ctail⟩
    · simp at hpos
    · simp only [List.flatten_cons, List.cons_append] at hfuel ⊢
      cases fuel with
      | zero => simp at hfuel
      | succ f =>
        have hpi' : payloadInfo (b :: (ctail ++ cs.flatten)) = .ok (h, l) := by
          have := hpi cs.flatten
          simpa using this
        simp only [List.length_cons] at hsum
        simp only [atAuxF, hpi']
        rw [if_neg (by simp only [List.length_cons, List.length_append]; omega)]
        cases i with
        | zero =>
          rw [if_pos rfl]
          have htake : (b :: (ctail ++ cs.flatten)).take (h + l) = b :: ctail := by
            have he : h + l = (b :: ctail).length := by simp; omega
            rw [he, ← List.cons_append, List.take_left]
          rw [htake]
          simp
        | succ j =>
          rw [if_neg (by omega)]
          have hdrop : (ctail ++ cs.flatten).drop (h + l - 1) = cs.flatten := by
            have he : h + l - 1 = ctail.length := by omega
            rw [he, List.drop_left]
          rw [hdrop]
          have hj : j < cs.length := by simp at hi; omega
          simp only [Nat.add_sub_cancel]
          rw [ih f j (fun x hx => hall x (by simp [hx])) (by
            simp only [List.length_cons, List.length_append] at hfuel
            omega) hj]
          simp

theorem itemCount_encFlatten (cs : List (List Nat)) (hall : ∀ c ∈ cs, ChunkLike c)
    (hlen : cs.flatten.length < 2 ^ 64) :
    itemCount (encListPayload cs.flatten) = .ok cs.length := by
  obtain ⟨hd, henc, hdpos, hpi, hlist⟩ := encListPayload_spec cs.flatten hlen
  have hpi0 : payloadInfo (encListPayload cs.flatten) = .ok (hd.length, cs.flatten.length) := by
    have := hpi []
    simpa using this
  have hlist0 : isListBytes (encListPayload cs.flatten) = true := by
    have := hlist []
    simpa using this
  have hlen2 : (encListPayload cs.flatten).length = hd.length + cs.flatten.length := by
    rw [henc]; simp
  have hdrop : (encListPayload cs.flatten).drop hd.length = cs.flatten := by
    rw [henc, List.drop_left]
  unfold itemCount
  rw [hlist0]
  simp only [Bool.true_eq_false, if_false, hpi0]
  rw [if_neg (by omega), hdrop, List.take_length]
  unfold countAux
  exact countAuxF_flatten cs cs.flatten.length hall le_rfl

theorem atIndex_encFlatten (cs : List (List Nat)) (i : Nat)
    (hall : ∀ c ∈ cs, ChunkLike c) (hlen : cs.flatten.length < 2 ^ 64)
    (hi : i < cs.length) :
    atIndex (encListPayload cs.flatten) i = .ok (cs.getD i []) := by
  obtain ⟨hd, henc, hdpos, hpi, hlist⟩ := encListPayload_spec cs.flatten hlen
  have hpi0 : payloadInfo (encListPayload cs.flatten) = .ok (hd.length, cs.flatten.length) := by
    have := hpi []
    simpa using this
  have hlist0 : isListBytes (encListPayload cs.flatten) = true := by
    have := hlist []
    simpa using this
  have hlen2 : (encListPayload cs.flatten).length = hd.length + cs.flatten.length := by
    rw [henc]; simp
  have hdrop : (encListPayload cs.flatten).drop hd.length = cs.flatten := by
    rw [henc, List.drop_left]
  unfold atIndex
  rw [hlist0]
  simp only [Bool.true_eq_false, if_false, hpi0]
  rw [if_neg (by omega), hdrop, List.take_length]
  unfold atAux
  exact atAuxF_flatten cs cs.flatten.length i hall le_rfl hi

theorem valBytesAt_encFlatten (cs : List (List Nat)) (i : Nat) (bs : List Nat)
    (hall : ∀ c ∈ cs, ChunkLike c) (hlen : cs.flatten.length < 2 ^ 64)
    (hi : i < cs.length) (hgd : cs.getD i [] = encStr bs)
    (hbs : bs.length < 2 ^ 64) :
    valBytesAt (encListPayload cs.flatten) i = .ok bs := by
  unfold valBytesAt
  rw [atIndex_encFlatten cs i hall hlen hi]
  simp only [bind, Except.bind]
  rw [hgd]
  exact dataOf_encStr bs hbs

theorem valUintAt_encFlatten (maxLen : Nat) (cs : List (List Nat)) (i n : Nat)
    (hall : ∀ c ∈ cs, ChunkLike c) (hlen : cs.flatten.length < 2 ^ 64)
    (hi : i < cs.length) (hgd : cs.getD i [] = encUint n)
    (hmax : (beBytes n).length ≤ maxLen) (hmaxlt : maxLen < 2 ^ 64) :
    valUintAt maxLen (encListPayload cs.flatten) i = .ok n := by
  unfold valUintAt
  rw [valBytesAt_encFlatten cs i (beBytes n) hall hlen hi hgd (by omega)]
  simp only [bind, Except.bind]
  exact decodeUintData_beBytes maxLen n hmax

theorem pow_256_4 : (256 : Nat) ^ 4 = 2 ^ 32 := by norm_num

/-!  Supporting lemmas: round-trips of the repository's entities. -/

theorem account_rlp_existing (addr : NibbleKey) (n b : Nat) (c s : List Nat) :
    Account.rlp_append (.Existing addr n b c s) =
      encListPayload
        ([encStr addr.nibbles, encUint n, encUint b, encStr c, encStr s].flatten) := by
  simp [Account.rlp_append, List.append_assoc]

theorem account_decode_rlp_existing (addr : NibbleKey) (n b : Nat) (c s : List Nat)
    (h1 : n < 2 ^ 64) (h2 : b < 2 ^ 64) (h3 : addr.nibbles.length < 2 ^ 32)
    (h4 : c.length < 2 ^ 32) (h5 : s.length < 2 ^ 32) :
    Account.decode (Account.rlp_append (.Existing addr n b c s)) =
      .ok (.Existing addr n b c s) := by
  have hall : ∀ x ∈ [encStr addr.nibbles, encUint n, encUint b, encStr c, encStr s],
      ChunkLike x := by
    intro x hx
    simp only [List.mem_cons, List.not_mem_nil, or_false] at hx
    rcases hx with rfl | rfl | rfl | rfl | rfl
    · exact chunkLike_encStr _ (by omega)
    · exact chunkLike_encUint _ h1
    · exact chunkLike_encUint _ h2
    · exact chunkLike_encStr _ (by omega)
    · exact chunkLike_encStr _ (by omega)
  have hflatlen :
      ([encStr addr.nibbles, encUint n, encUint b, encStr c, encStr s].flatten).length
        < 2 ^ 64 := by
    have e1 := encStr_length_le addr.nibbles (by omega)
    have e2 := encUint_length_le n h1
    have e3 := encUint_length_le b h2
    have e4 := encStr_length_le c (by omega)
    have e5 := encStr_length_le s (by omega)
    simp only [List.flatten_cons, List.flatten_nil, List.append_nil, List.length_append]
    omega
  rw [account_rlp_existing]
  unfold Account.decode
  rw [itemCount_encFlatten _ hall hflatlen]
  rw [valBytesAt_encFlatten _ 0 addr.nibbles hall hflatlen (by norm_num) rfl (by omega)]
  rw [valUintAt_encFlatten 8 _ 1 n hall hflatlen (by norm_num) rfl
    (beBytes_length_le 8 n (by rw [pow_256_8]; exact h1)) (by norm_num)]
  rw [valUintAt_encFlatten 8 _ 2 b hall hflatlen (by norm_num) rfl
    (beBytes_length_le 8 b (by rw [pow_256_8]; exact h2)) (by norm_num)]
  rw [valBytesAt_encFlatten _ 3 c hall hflatlen (by norm_num) rfl (by omega)]
  rw [valBytesAt_encFlatten _ 4 s hall hflatlen (by norm_num) rfl (by omega)]
  simp [bind, Except.bind, pure, Except.pure, NibbleKey.ofVec]

theorem account_decode_empty :
    Account.decode (Account.rlp_append .Empty) = .err .rlpExpectedToBeList := by
  decide

theorem tx_rlp_eq (t : Tx) :
    Tx.rlp_append t =
      encListPayload
        ([encStr t.from_.nibbles, encStr t.to_.nibbles, encUint t.nonce,
          encUint t.value, encUint t.call, encStr t.data,
          encStr t.signature].flatten) := by
  simp [Tx.rlp_append, List.append_assoc]

theorem tx_chunks (t : Tx) (hwf : TxWf t) :
    ∀ x ∈ [encStr t.from_.nibbles, encStr t.to_.nibbles, encUint t.nonce,
      encUint t.value, encUint t.call, encStr t.data, encStr t.signature],
      ChunkLike x := by
  obtain ⟨w1, w2, w3, w4, w5, w6, w7⟩ := hwf
  intro x hx
  simp only [List.mem_cons, List.not_mem_nil, or_false] at hx
  rcases hx with rfl | rfl | rfl | rfl | rfl | rfl | rfl
  · exact chunkLike_encStr _ (by omega)
  · exact chunkLike_encStr _ (by omega)
  · exact chunkLike_encUint _ w1
  · exact chunkLike_encUint _ w2
  · exact chunkLike_encUint _ (by omega)
  · exact chunkLike_encStr _ (by omega)
  · exact chunkLike_encStr _ (by omega)

theorem tx_flatten_len (t : Tx) (hwf : TxWf t) :
    ([encStr t.from_.nibbles, encStr t.to_.nibbles, encUint t.nonce,
      encUint t.value, encUint t.call, encStr t.data,
      encStr t.signature].flatten).length < 2 ^ 35 := by
  obtain ⟨w1, w2, w3, w4, w5, w6, w7⟩ := hwf
  have e1 := encStr_length_le t.from_.nibbles (by omega)
  have e2 := encStr_length_le t.to_.nibbles (by omega)
  have e3 := encUint_length_le t.nonce w1
  have e4 := encUint_length_le t.value w2
  have e5 := encUint_length_le t.call (by omega)
  have e6 := encStr_length_le t.data (by omega)
  have e7 := encStr_length_le t.signature (by omega)
  simp only [List.flatten_cons, List.flatten_nil, List.append_nil, List.length_append]
  omega

theorem tx_decode_rlp (t : Tx) (hwf : TxWf t) :
    Tx.decode (Tx.rlp_append t) = .ok t := by
  have hall := tx_chunks t hwf
  have hflatlen :
      ([encStr t.from_.nibbles, encStr t.to_.nibbles, encUint t.nonce,
        encUint t.value, encUint t.call, encStr t.data,
        encStr t.signature].flatten).length < 2 ^ 64 := by
    have := tx_flatten_len t hwf
    omega
  obtain ⟨w1, w2, w3, w4, w5, w6, w7⟩ := hwf
  rw [tx_rlp_eq]
  unfold Tx.decode
  rw [valBytesAt_encFlatten _ 0 t.from_.nibbles hall hflatlen (by norm_num) rfl (by omega)]
  rw [valBytesAt_encFlatten _ 1 t.to_.nibbles hall hflatlen (by norm_num) rfl (by omega)]
  rw [valUintAt_encFlatten 8 _ 2 t.nonce hall hflatlen (by norm_num) rfl
    (beBytes_length_le 8 t.nonce (by rw [pow_256_8]; exact w1)) (by norm_num)]
  rw [valUintAt_encFlatten 8 _ 3 t.value hall hflatlen (by norm_num) rfl
    (beBytes_length_le 8 t.value (by rw [pow_256_8]; exact w2)) (by norm_num)]
  rw [valUintAt_encFlatten 4 _ 4 t.call hall hflatlen (by norm_num) rfl
    (beBytes_length_le 4 t.call (by rw [pow_256_4]; exact w3)) (by norm_num)]
  rw [valBytesAt_encFlatten _ 5 t.data hall hflatlen (by norm_num) rfl (by omega)]
  rw [valBytesAt_encFlatten _ 6 t.signature hall hflatlen (by norm_num) rfl (by omega)]
  simp [bind, Except.bind, pure, Except.pure, NibbleKey.ofVec]

theorem txItemsF_flatten :
    ∀ (ts : List Tx) (fuel : Nat), (∀ t ∈ ts, TxWf t) →
      ((ts.map Tx.rlp_append).flatten).length ≤ fuel →
      txItemsF fuel (ts.map Tx.rlp_append).flatten = .ok ts := by
  intro ts
  induction ts with
  | nil =>
    intro fuel _ _
    cases fuel <;> simp [txItemsF]
  | cons t ts ih =>
    intro fuel hall hfuel
    have hwf : TxWf t := hall t (by simp)
    have hck : ChunkLike (Tx.rlp_append t) := by
      rw [tx_rlp_eq]
      exact chunkLike_encListPayload _ (by have := tx_flatten_len t hwf; omega)
    obtain ⟨hpos, h, l, hsum, hpi⟩ := hck
    rcases hc : Tx.rlp_append t with _ | ⟨b, ctail⟩
    · rw [hc] at hpos
      simp at hpos
    · rw [hc] at hsum hpi
      simp only [List.length_cons] at hsum
      simp only [List.map_cons, List.flatten_cons, hc, List.cons_append] at hfuel ⊢
      cases fuel with
      | zero => simp at hfuel
      | succ f =>
        have hpi' : payloadInfo (b :: (ctail ++ (ts.map Tx.rlp_append).flatten))
            = .ok (h, l) := by
          have := hpi (ts.map Tx.rlp_append).flatten
          simpa using this
        simp only [txItemsF, hpi']
        rw [if_neg (by simp only [List.length_cons, List.length_append]; omega)]
        have htake : (b :: (ctail ++ (ts.map Tx.rlp_append).flatten)).take (h + l)
            = b :: ctail := by
          have he : h + l = (b :: ctail).length := by simp; omega
          rw [he, ← List.cons_append, List.take_left]
        rw [htake, ← hc, tx_decode_rlp t hwf]
        have hdrop : (ctail ++ (ts.map Tx.rlp_append).flatten).drop (h + l - 1)
            = (ts.map Tx.rlp_append).flatten := by
          have he : h + l - 1 = ctail.length := by omega
          rw [he, List.drop_left]
        rw [hdrop, ih f (fun x hx => hall x (by simp [hx])) (by
          simp only [List.length_cons, List.length_append] at hfuel
          omega)]

theorem listAtTxs_enc (ts : List Tx) (hall : ∀ t ∈ ts, TxWf t)
    (hlen : ((ts.map Tx.rlp_append).flatten).length < 2 ^ 64) :
    listAtTxs (encListPayload ((ts.map Tx.rlp_append).flatten)) = .ok ts := by
  obtain ⟨hd, henc, hdpos, hpi, hlist⟩ := encListPayload_spec _ hlen
  have hpi0 : payloadInfo (encListPayload ((ts.map Tx.rlp_append).flatten))
      = .ok (hd.length, ((ts.map Tx.rlp_append).flatten).length) := by
    have := hpi []
    simpa using this
  have hlist0 : isListBytes (encListPayload ((ts.map Tx.rlp_append).flatten)) = true := by
    have := hlist []
    simpa using this
  have hlen2 : (encListPayload ((ts.map Tx.rlp_append).flatten)).length
      = hd.length + ((ts.map Tx.rlp_append).flatten).length := by
    rw [henc]; simp
  have hdrop : (encListPayload ((ts.map Tx.rlp_append).flatten)).drop hd.length
      = (ts.map Tx.rlp_append).flatten := by
    rw [henc, List.drop_left]
  unfold listAtTxs
  rw [hlist0]
  simp only [Bool.true_eq_false, if_false, hpi0]
  rw [if_neg (by omega), hdrop, List.take_length]
  unfold txItems
  exact txItemsF_flatten ts _ hall le_rfl

theorem txdata_decode_rlp (td : TxData) (ht : ∀ t ∈ td.txs, TxWf t)
    (hp : td.proof.blob.length < 2 ^ 32)
    (hl : ((td.txs.map Tx.rlp_append).flatten).length < 2 ^ 62) :
    TxData.decode (TxData.rlp_append td) = .ok td := by
  have hall : ∀ x ∈ [encStr td.proof.blob,
      encListPayload ((td.txs.map Tx.rlp_append).flatten)], ChunkLike x := by
    intro x hx
    simp only [List.mem_cons, List.not_mem_nil, or_false] at hx
    rcases hx with rfl | rfl
    · exact chunkLike_encStr _ (by omega)
    · exact chunkLike_encListPayload _ (by omega)
  have hflatlen :
      ([encStr td.proof.blob,
        encListPayload ((td.txs.map Tx.rlp_append).flatten)].flatten).length
        < 2 ^ 64 := by
    have e1 := encStr_length_le td.proof.blob (by omega)
    have e2 := encListPayload_length_le ((td.txs.map Tx.rlp_append).flatten) (by omega)
    simp only [List.flatten_cons, List.flatten_nil, List.append_nil, List.length_append]
    omega
  have henc : TxData.rlp_append td =
      encListPayload
        ([encStr td.proof.blob,
          encListPayload ((td.txs.map Tx.rlp_append).flatten)].flatten) := by
    simp [TxData.rlp_append, Multiproof.rlp_append]
  rw [henc]
  unfold TxData.decode
  rw [atIndex_encFlatten _ 0 hall hflatlen (by norm_num)]
  rw [atIndex_encFlatten _ 1 hall hflatlen (by norm_num)]
  simp only [bind, Except.bind, List.getD_cons_zero, List.getD_cons_succ]
  unfold Multiproof.decode
  rw [dataOf_encStr td.proof.blob (by omega)]
  simp only [bind, Except.bind, pure, Except.pure]
  rw [listAtTxs_enc td.txs ht (by omega)]

/-!  Claim theorems. -/

/-- C2: the claim asks that `withdraw` on an `Existing` account with
balance `b` and `amount ≤ b` succeed with resulting balance `b - amount`.
The code instead executes `*balance += amount` on the success path: at
balance 10 and amount 3 it returns `Ok` with balance 13, not 7 — the
specification itself flags this addition as a latent defect, so the claim is
right and the code is wrong. -/
theorem c2_withdraw_adds_on_success :
    Account.withdraw (.Existing (NibbleKey.ofVec []) 0 10 [] []) 3 =
      (.ok (), .Existing (NibbleKey.ofVec []) 0 13 [] []) ∧
    (.Existing (NibbleKey.ofVec []) 0 13 [] [] : Account) ≠
      .Existing (NibbleKey.ofVec []) 0 7 [] [] := by
  constructor
  · decide
  · decide

/-- C4: the claim asks that Account decoding of a list whose item count is
neither 0 nor 5 return a structured `DecodeError` and never abort. The code's
decoder instead hits the explicit abort arm
(`panic!("Invalid payload, item count=...")`): on the 2-item list
`[0xc2, 0x80, 0x80]` the item count is `Ok 2` and decoding aborts the
process, so the claim is right and the code is wrong. -/
theorem c4_bad_item_count_aborts :
    itemCount [0xc2, 0x80, 0x80] = .ok 2 ∧
    Account.decode [0xc2, 0x80, 0x80] =
      .panics ("Invalid payload, item count=" ++ toString 2) ∧
    ∀ e : DecoderError, Account.decode [0xc2, 0x80, 0x80] ≠ .err e := by
  refine ⟨by decide, by decide, ?_⟩
  intro e h
  rw [show Account.decode [0xc2, 0x80, 0x80] =
    .panics ("Invalid payload, item count=" ++ toString 2) from by decide] at h
  exact Outcome.noConfusion h

/-- C5: `deposit` and `withdraw` on an `Empty` account fail with the
invalid-account-state error (the source's error strings for mutating an
empty account); `withdraw` on an `Existing` account fails with
`"Insufficient balance"` exactly when `balance < amount`; and whenever either
operation returns an error, the account value is unchanged. -/
theorem c5_error_paths (amount : Nat) (addr : NibbleKey) (n b : Nat)
    (c s : List Nat) (a : Account) :
    Account.deposit .Empty amount =
      (.error ("can not increase the balance of an empty account"), .Empty) ∧
    Account.withdraw .Empty amount =
      (.error ("Can not increase the balance of an empty account"), .Empty) ∧
    ((Account.withdraw (.Existing addr n b c s) amount).1 =
      .error ("Insufficient balance") ↔ b < amount) ∧
    (∀ e, (Account.deposit a amount).1 = .error e →
      (Account.deposit a amount).2 = a) ∧
    (∀ e, (Account.withdraw a amount).1 = .error e →
      (Account.withdraw a amount).2 = a) := by
  refine ⟨rfl, rfl, ?_, ?_, ?_⟩
  · simp only [Account.withdraw]
    split_ifs with h
    · constructor
      · intro h'
        simp at h'
      · intro h'
        omega
    · constructor
      · intro _
        omega
      · intro _
        rfl
  · intro e he
    cases a with
    | Existing addr2 n2 b2 c2 s2 => simp [Account.deposit] at he
    | Empty => rfl
  · intro e he
    cases a with
    | Existing addr2 n2 b2 c2 s2 =>
      simp only [Account.withdraw] at he ⊢
      split_ifs at he ⊢ with h <;> first | rfl | simp at he
    | Empty => rfl

/-- C5 witness: the error paths evaluated at concrete inputs. -/
theorem c5_witness :
    (Account.withdraw (.Existing (NibbleKey.ofVec []) 0 1 [] []) 2).1 =
      .error ("Insufficient balance") ∧
    Account.deposit .Empty 2 =
      (.error ("can not increase the balance of an empty account"), .Empty) := by
  have h := c5_error_paths 2 (NibbleKey.ofVec []) 0 1 [] [] Account.Empty
  exact ⟨h.2.2.1.mpr (by omega), h.1⟩

/-- C8: the accessors `balance` and `nonce` are total, return 0 on `Empty`,
and return the stored fields on `Existing`; there is no error path (the
return type is the plain integer). -/
theorem c8_accessors_total (addr : NibbleKey) (n b : Nat) (c s : List Nat) :
    Account.balance .Empty = 0 ∧ Account.nonce .Empty = 0 ∧
    Account.balance (.Existing addr n b c s) = b ∧
    Account.nonce (.Existing addr n b c s) = n :=
  ⟨rfl, rfl, rfl, rfl⟩

/-- C10: `deposit` performs unchecked (wrapping, in release profile) 64-bit
addition — the resulting balance is `(b + amount) mod 2^64` and the result is
`Ok` with no overflow error; the success branch of `withdraw` performs the
same unchecked addition. -/
theorem c10_unchecked_wrapping_addition (addr : NibbleKey) (n b : Nat)
    (c s : List Nat) (amount : Nat) :
    Account.deposit (.Existing addr n b c s) amount =
      (.ok (), .Existing addr n ((b + amount) % 2 ^ 64) c s) ∧
    (amount ≤ b → Account.withdraw (.Existing addr n b c s) amount =
      (.ok (), .Existing addr n ((b + amount) % 2 ^ 64) c s)) := by
  refine ⟨rfl, fun h => ?_⟩
  simp only [Account.withdraw]
  rw [if_pos h]

/-- C10 witness: wrapping addition evaluated at a concrete near-overflow
input: depositing 7 at balance `2^64 - 2` wraps to 5. -/
theorem c10_witness :
    Account.deposit (.Existing (NibbleKey.ofVec []) 0 (2 ^ 64 - 2) [] []) 7 =
      (.ok (), .Existing (NibbleKey.ofVec []) 0 5 [] []) ∧
    Account.withdraw (.Existing (NibbleKey.ofVec []) 0 (2 ^ 64 - 2) [] []) 7 =
      (.ok (), .Existing (NibbleKey.ofVec []) 0 5 [] []) := by
  have h := c10_unchecked_wrapping_addition (NibbleKey.ofVec []) 0 (2 ^ 64 - 2) [] [] 7
  have he : ((2 ^ 64 - 2 + 7) % 2 ^ 64 : Nat) = 5 := by decide
  constructor
  · rw [h.1, he]
  · rw [h.2 (by norm_num), he]

/-- C3 counterexample: the round-trip law fails at `Account::Empty`. Its
encoding is the RLP empty-string marker `0x80`, but the decoder first calls
`item_count`, which demands a list: decoding the encoding of `Empty` returns
`RlpExpectedToBeList` instead of `Ok(Empty)` (the item-count-0 path is only
reachable from the empty-list byte `0xc0`, which the encoder never emits). -/
theorem c3_counterexample :
    Account.rlp_append .Empty = [0x80] ∧
    Account.decode (Account.rlp_append .Empty) = .err .rlpExpectedToBeList ∧
    Account.decode (Account.rlp_append .Empty) ≠ .ok Account.Empty := by
  refine ⟨by decide, by decide, ?_⟩
  intro h
  rw [show Account.decode (Account.rlp_append .Empty) =
    .err .rlpExpectedToBeList from by decide] at h
  exact Outcome.noConfusion h

/-- C3 (amended): decoding the canonical encoding yields the original value
for every `Existing` account, every `Tx`, and every `TxData` (under the
in-range bounds the Rust integer types and vector lengths guarantee);
but for `Account::Empty` the round-trip fails — the decoder returns
`RlpExpectedToBeList` on the empty-data marker that the encoder emits. -/
theorem c3_roundtrip_amended :
    (∀ (addr : NibbleKey) (n b : Nat) (c s : List Nat),
      n < 2 ^ 64 → b < 2 ^ 64 → addr.nibbles.length < 2 ^ 32 →
      c.length < 2 ^ 32 → s.length < 2 ^ 32 →
      Account.decode (Account.rlp_append (.Existing addr n b c s)) =
        .ok (.Existing addr n b c s)) ∧
    Account.decode (Account.rlp_append .Empty) = .err .rlpExpectedToBeList ∧
    (∀ t : Tx, TxWf t → Tx.decode (Tx.rlp_append t) = .ok t) ∧
    (∀ td : TxData, (∀ t ∈ td.txs, TxWf t) → td.proof.blob.length < 2 ^ 32 →
      ((td.txs.map Tx.rlp_append).flatten).length < 2 ^ 62 →
      TxData.decode (TxData.rlp_append td) = .ok td) :=
  ⟨fun addr n b c s h1 h2 h3 h4 h5 =>
      account_decode_rlp_existing addr n b c s h1 h2 h3 h4 h5,
    account_decode_empty,
    fun t h => tx_decode_rlp t h,
    fun td h1 h2 h3 => txdata_decode_rlp td h1 h2 h3⟩

set_option maxRecDepth 10000 in
/-- C3 witness: the round-trips evaluated at concrete inputs. -/
theorem c3_witness :
    Account.decode (Account.rlp_append
        (.Existing (NibbleKey.ofVec [1, 2]) 3 4 [5] [6])) =
      .ok (.Existing (NibbleKey.ofVec [1, 2]) 3 4 [5] [6]) ∧
    Tx.decode (Tx.rlp_append sampleTx) = .ok sampleTx ∧
    TxData.decode (TxData.rlp_append ⟨⟨[9]⟩, [sampleTx]⟩) =
      .ok ⟨⟨[9]⟩, [sampleTx]⟩ :=
  ⟨c3_roundtrip_amended.1 (NibbleKey.ofVec [1, 2]) 3 4 [5] [6]
      (by decide) (by decide) (by decide) (by decide) (by decide),
    c3_roundtrip_amended.2.2.1 sampleTx (by decide),
    c3_roundtrip_amended.2.2.2 ⟨⟨[9]⟩, [sampleTx]⟩ (by decide) (by decide)
      (by decide)⟩

/-- C6: address derivation is deterministic. All involved primitives
(RFC 6979 signing, public-key recovery, keccak-256) are deterministic pure
functions, so any two runs of `From<SecretKey>` on the same key produce the
same result, address included. -/
theorem c6_derive_address_deterministic (C : Crypto) (k : List Nat)
    (a₁ a₂ : Outcome Account)
    (h₁ : Account.fromSecretKey C k = a₁)
    (h₂ : Account.fromSecretKey C k = a₂) : a₁ = a₂ :=
  h₁.symm.trans h₂

/-- C6 witness: two runs on the sample key under the toy bundle, one
evaluated and one symbolic, agree. -/
theorem c6_witness :
    Account.fromSecretKey toyCrypto sampleKey =
      .ok (.Existing (NibbleKey.ofByteKey (List.replicate 20 1)) 0 0 [] []) :=
  c6_derive_address_deterministic toyCrypto sampleKey _ _ rfl (by decide)

/-- Evaluation of `sig_check` on a transaction with a 65-byte signature
field: the message parse, the slice bounds and the signature parse always
succeed, leaving the recovery-id parse, the recovery, the verification and
the address comparison. -/
theorem sig_check_unfold (C : Crypto) (t : Tx) (h65 : t.signature.length = 65) :
    Tx.sig_check C t =
      (match recoveryIdParse (t.signature.getD 64 0) with
       | none => .panics ("unwrap failed: RecoveryId parse")
       | some recid =>
         match C.recover (C.keccak t.digestInput) (t.signature.take 64) recid with
         | none => .panics ("unwrap failed: public key recovery")
         | some pkey =>
           if C.verify (C.keccak t.digestInput) (t.signature.take 64) pkey = false
           then .ok (false, NibbleKey.ofVec [])
           else .ok (addressFromPubkey C pkey == t.from_,
             addressFromPubkey C pkey)) := by
  have hkec := C.keccak_len t.digestInput
  unfold Tx.sig_check
  rw [show messageParse (C.keccak t.digestInput) =
    some (C.keccak t.digestInput) from by simp [messageParse, hkec]]
  simp only []
  rw [if_neg (by omega)]
  rw [show signatureParseSlice (t.signature.take 64) =
    some (t.signature.take 64) from by
      simp [signatureParseSlice, List.length_take, h65]]
  simp only []
  rw [if_neg (by omega)]

/-- The signature field written by a successful `Tx::sign` on a well-formed
transaction: the 64 signature bytes followed by the recovery id. -/
theorem sign_ok_signature (C : Crypto) (t tS : Tx) (k : List Nat)
    (hsig : t.signature.length = 65) (hsign : Tx.sign C t k = .ok tS) :
    tS = { t with signature := (C.sign (C.keccak t.digestInput) k).1 ++
      [(C.sign (C.keccak t.digestInput) k).2] } := by
  have hdrop65 : t.signature.drop 65 = [] :=
    List.drop_eq_nil_of_le (by omega)
  unfold Tx.sign at hsign
  rcases hvk : C.validSk k with _ | _
  · rw [hvk] at hsign
    simp at hsign
  · rw [hvk] at hsign
    rw [if_neg (by simp)] at hsign
    rcases hm : messageParse (C.keccak t.digestInput) with _ | message
    · rw [hm] at hsign
      simp only [] at hsign
      exact absurd hsign (by simp)
    · have hmm : message = C.keccak t.digestInput := by
        unfold messageParse at hm
        split_ifs at hm
        exact (Option.some.inj hm).symm
      rw [hm] at hsign
      simp only [] at hsign
      rw [if_neg (by omega), if_neg (by omega)] at hsign
      have := Outcome.ok.inj hsign
      rw [← this, hmm, hdrop65]
      simp

/-- C9 (implicit): `sig_check` on a `Tx` whose stored signature is not a
parseable recoverable signature panics instead of returning `(false, _)`:
(1) on a freshly constructed unsigned `Tx` (signature = 65 zero bytes from
`Tx::new`), the zero signature parses but recovery fails and the `unwrap`
on `recover` panics — under the hypothesis, true of secp256k1, that
recovering from the all-zero signature fails; (2) on any `Tx` whose 65-byte
signature ends in a byte that is not a valid recovery id (≥ 4),
`RecoveryId::parse` fails and its `unwrap` panics. -/
theorem c9_unparseable_signature_panics :
    (∀ (C : Crypto) (fromB toB : List Nat) (nonce : Nat),
      C.recover (C.keccak (Tx.new fromB toB nonce).digestInput)
          (List.replicate 64 0) 0 = none →
      Tx.sig_check C (Tx.new fromB toB nonce) =
        .panics ("unwrap failed: public key recovery")) ∧
    (∀ (C : Crypto) (t : Tx), t.signature.length = 65 →
      4 ≤ t.signature.getD 64 0 →
      Tx.sig_check C t = .panics ("unwrap failed: RecoveryId parse")) := by
  constructor
  · intro C fromB toB nonce hrec
    rw [sig_check_unfold C (Tx.new fromB toB nonce) (by simp [Tx.new])]
    have hsig : (Tx.new fromB toB nonce).signature = List.replicate 65 0 := rfl
    rw [hsig]
    rw [show (List.replicate 65 (0 : Nat)).getD 64 0 = 0 from by decide]
    rw [show recoveryIdParse 0 = some 0 from by simp [recoveryIdParse]]
    simp only []
    rw [show (List.replicate 65 (0 : Nat)).take 64 = List.replicate 64 0 from by
      simp [List.take_replicate]]
    rw [hrec]
  · intro C t h65 hge
    rw [sig_check_unfold C t h65]
    rw [show recoveryIdParse (t.signature.getD 64 0) = none from by
      unfold recoveryIdParse
      rw [if_neg (by omega)]]

/-- C9 witness: the panic evaluated on the freshly constructed sample
transaction (under the toy bundle whose recovery always fails, matching
secp256k1's rejection of the all-zero signature) and on a transaction whose
recovery-id byte is 4. -/
theorem c9_witness :
    Tx.sig_check toyCryptoNone sampleTx =
      .panics ("unwrap failed: public key recovery") ∧
    Tx.sig_check toyCrypto (corruptAt sampleSignedTx 64 4) =
      .panics ("unwrap failed: RecoveryId parse") := by
  constructor
  · exact c9_unparseable_signature_panics.1 toyCryptoNone (List.replicate 20 1)
      (List.replicate 20 6) 1 rfl
  · exact c9_unparseable_signature_panics.2 toyCrypto
      (corruptAt sampleSignedTx 64 4) (by decide) (by decide)

/-- C1: for a valid `Tx` whose `from` field is the address derived from
secret key `k` (via `From<SecretKey>`), signing with `k` and then running
`sig_check` returns `(true, a)` where `a` is the keccak-256 hash of the
recovered public key truncated to 20 bytes and nibble-encoded, and `a`
equals `t.from`. The hypotheses are the secp256k1 behavioural contract:
`k` parses as a secret key, recovering from a signature made with `k`
yields `k`'s public key, and verification of one's own signature
succeeds. -/
theorem c1_sign_then_sig_check (C : Crypto) (k pk : List Nat) (t : Tx)
    (hsk : C.validSk k = true)
    (hrec : ∀ m, C.recover m (C.sign m k).1 (C.sign m k).2 = some pk)
    (hver : ∀ m, C.verify m (C.sign m k).1 pk = true)
    (hsig : t.signature.length = 65)
    (hfrom : Account.fromSecretKey C k = .ok (.Existing t.from_ 0 0 [] [])) :
    ∃ t', Tx.sign C t k = .ok t' ∧
      Tx.sig_check C t' = .ok (true, addressFromPubkey C pk) ∧
      addressFromPubkey C pk = t.from_ := by
  have haddr : addressFromPubkey C pk = t.from_ := by
    unfold Account.fromSecretKey at hfrom
    rw [show messageParse (List.replicate 32 0x55) =
      some (List.replicate 32 0x55) from by simp [messageParse]] at hfrom
    simp only [] at hfrom
    rw [hrec (List.replicate 32 0x55)] at hfrom
    simp only [Outcome.ok.injEq, Account.Existing.injEq, and_true] at hfrom
    exact hfrom
  have hkec := C.keccak_len t.digestInput
  have hm2 : messageParse (C.keccak t.digestInput) =
      some (C.keccak t.digestInput) := by simp [messageParse, hkec]
  have hslen := C.sign_len (C.keccak t.digestInput) k
  have hsrec := C.sign_recid (C.keccak t.digestInput) k
  refine ⟨{ t with signature := (C.sign (C.keccak t.digestInput) k).1 ++
    [(C.sign (C.keccak t.digestInput) k).2] }, ?_, ?_, haddr⟩
  · have hdrop65 : t.signature.drop 65 = [] :=
      List.drop_eq_nil_of_le (by omega)
    unfold Tx.sign
    rw [hsk]
    rw [if_neg (by simp), hm2]
    simp only []
    rw [if_neg (by omega), if_neg (by omega), hdrop65]
    simp
  · have hsg : ({ t with signature := (C.sign (C.keccak t.digestInput) k).1 ++
      [(C.sign (C.keccak t.digestInput) k).2] } : Tx).signature =
        (C.sign (C.keccak t.digestInput) k).1 ++
          [(C.sign (C.keccak t.digestInput) k).2] := rfl
    have hdg : ({ t with signature := (C.sign (C.keccak t.digestInput) k).1 ++
      [(C.sign (C.keccak t.digestInput) k).2] } : Tx).digestInput =
        t.digestInput := rfl
    have hfr : ({ t with signature := (C.sign (C.keccak t.digestInput) k).1 ++
      [(C.sign (C.keccak t.digestInput) k).2] } : Tx).from_ = t.from_ := rfl
    rw [sig_check_unfold C _ (by rw [hsg]; simp [hslen])]
    rw [hsg, hdg, hfr]
    rw [show ((C.sign (C.keccak t.digestInput) k).1 ++
      [(C.sign (C.keccak t.digestInput) k).2]).getD 64 0 =
        (C.sign (C.keccak t.digestInput) k).2 from by
      rw [List.getD_append_right _ _ 0 64 (by omega), hslen]
      simp]
    rw [show recoveryIdParse (C.sign (C.keccak t.digestInput) k).2 =
      some (C.sign (C.keccak t.digestInput) k).2 from by
      simp [recoveryIdParse, hsrec]]
    simp only []
    rw [show ((C.sign (C.keccak t.digestInput) k).1 ++
      [(C.sign (C.keccak t.digestInput) k).2]).take 64 =
        (C.sign (C.keccak t.digestInput) k).1 from by
      rw [← hslen]
      exact List.take_left _ _]
    rw [hrec (C.keccak t.digestInput)]
    simp only []
    rw [if_neg (by simp [hver (C.keccak t.digestInput)])]
    rw [← haddr]
    simp

/-- C1 witness: the full sign/check cycle evaluated under the toy bundle on
the sample transaction, whose from-address is the toy-derived address of the
sample key. -/
theorem c1_witness :
    Tx.sign toyCrypto sampleTx sampleKey = .ok sampleSignedTx ∧
    Tx.sig_check toyCrypto sampleSignedTx = .ok (true, sampleTx.from_) ∧
    addressFromPubkey toyCrypto sampleKey = sampleTx.from_ := by
  obtain ⟨t', h1, h2, h3⟩ := c1_sign_then_sig_check toyCrypto sampleKey sampleKey
    sampleTx rfl (fun m => rfl) (fun m => rfl) (by decide) (by decide)
  have hts : t' = sampleSignedTx := by
    have hd : Tx.sign toyCrypto sampleTx sampleKey = .ok sampleSignedTx := by
      decide
    rw [hd] at h1
    exact (Outcome.ok.inj h1).symm
  rw [hts] at h1 h2
  rw [h3] at h2
  exact ⟨h1, h2, h3⟩

/-- C7 counterexample: the claim says any single corrupted signature byte
makes `sig_check` return `(false, _)` or a different address. Changing the
recovery-id byte (index 64) of a genuinely signed transaction from 0 to 4
instead PANICS inside `sig_check` (the `unwrap` of `RecoveryId::parse`,
which rejects ids ≥ 4 independently of any cryptography), so on this
single-byte corruption the function does not return at all. -/
theorem c7_counterexample :
    Tx.sign toyCrypto sampleTx sampleKey = .ok sampleSignedTx ∧
    sampleSignedTx.signature.getD 64 0 ≠ 4 ∧
    Tx.sig_check toyCrypto (corruptAt sampleSignedTx 64 4) =
      .panics ("unwrap failed: RecoveryId parse") := by
  refine ⟨by decide, by decide, by decide⟩

/-- C7 (amended): for every signed `Tx` with a well-formed signature field,
changing any single signature byte makes `sig_check` return `(false, _)`,
return a different address, or panic; it never silently returns
`(true, from)` for the original signer — stated as the outcome never being
`ok (true, from)`. The hypothesis `hno` is the cryptographic assumption that
the corrupted signature does not recover-and-verify to a public key whose
derived address is the original `from` address. -/
theorem c7_tamper_never_accepted (C : Crypto) (t tS : Tx) (k : List Nat)
    (i b : Nat)
    (hsig : t.signature.length = 65)
    (hsign : Tx.sign C t k = .ok tS)
    (hi : i < 65) (hb : tS.signature.getD i 0 ≠ b)
    (hno : ∀ r pk,
      recoveryIdParse ((corruptAt tS i b).signature.getD 64 0) = some r →
      C.recover (C.keccak (corruptAt tS i b).digestInput)
          ((corruptAt tS i b).signature.take 64) r = some pk →
      C.verify (C.keccak (corruptAt tS i b).digestInput)
          ((corruptAt tS i b).signature.take 64) pk = true →
      addressFromPubkey C pk ≠ tS.from_) :
    Tx.sig_check C (corruptAt tS i b) ≠ .ok (true, tS.from_) := by
  have h65 : tS.signature.length = 65 := by
    rw [sign_ok_signature C t tS k hsig hsign]
    simp [C.sign_len]
  have hc65 : (corruptAt tS i b).signature.length = 65 := by
    simp [corruptAt, h65]
  have hfr : (corruptAt tS i b).from_ = tS.from_ := rfl
  rw [sig_check_unfold C _ hc65]
  rcases hr : recoveryIdParse ((corruptAt tS i b).signature.getD 64 0)
    with _ | r
  · intro h
    exact Outcome.noConfusion h
  · simp only []
    rcases hrec : C.recover (C.keccak (corruptAt tS i b).digestInput)
        ((corruptAt tS i b).signature.take 64) r with _ | pk
    · intro h
      exact Outcome.noConfusion h
    · simp only []
      rcases hv : C.verify (C.keccak (corruptAt tS i b).digestInput)
          ((corruptAt tS i b).signature.take 64) pk with _ | _
      · rw [if_pos rfl]
        intro h
        have hcomp := congrArg Prod.fst (Outcome.ok.inj h)
        exact Bool.noConfusion hcomp
      · rw [if_neg (by simp)]
        intro h
        have hpair := Outcome.ok.inj h
        have haddr := hno r pk hr hrec hv
        rw [hfr] at hpair
        exact haddr (congrArg Prod.snd hpair)

/-- C7 witness: the amended theorem evaluated at the concrete corruption of
the sample signed transaction (recovery-id byte set to 4, which panics, so
acceptance is impossible and the crypto hypothesis holds vacuously). -/
theorem c7_witness :
    Tx.sig_check toyCrypto (corruptAt sampleSignedTx 64 4) ≠
      .ok (true, sampleSignedTx.from_) := by
  refine c7_tamper_never_accepted toyCrypto sampleTx sampleSignedTx sampleKey
    64 4 (by decide) (by decide) (by decide) (by decide) ?_
  intro r pk hr hrec hv
  rw [show recoveryIdParse ((corruptAt sampleSignedTx 64 4).signature.getD 64 0)
    = none from by decide] at hr
  exact Option.noConfusion hr

end Jupiter
